import Mathlib

/-!
Verification of the settings resolver and the revision codec of the
time-machine repository, against a shallow embedding of
`src/history.settings.ts` (and, for the codec, of the behaviour its tests
pin down together with the specification, since the controller source file
is not among the sources).

JS values are modelled as follows: `undefined`/`null` become `Option`,
machine numbers become `Int`/`Nat`, strings become `String`, and the cache
becomes an explicit state value threaded through `get`/`clear`.
-/

set_option maxHeartbeats 1000000

namespace TimeMachine

/-- JS coercion applied by `String.prototype.replace` to the value returned by
the replacement callback `(_, key) => process.env[key]` (line 129 of
history.settings.ts): a defined value is used as-is, `undefined` stringifies to
the text `undefined`. -/
def jsEnvStr : Option String → String
  | some v => v
  | none => "undefined"

/-- One pass of `historyPath.replace(/%([^%]+)%/g, (_, key) => process.env[key])`
(line 129 of history.settings.ts), as a character state machine: state `none`
is outside a candidate token, state `some pend` is inside one, `pend` holding
the characters seen since the opening percent sign (reversed).  A percent sign
closing a non-empty candidate completes a match; an adjacent pair of percent
signs means the first one cannot open a match, exactly as the regex scans. -/
def envAux (env : String → Option String) : List Char → Option (List Char) → List Char
  | [], none => []
  | [], some pend => '%' :: pend.reverse
  | c :: cs, none => if c = '%' then envAux env cs (some []) else c :: envAux env cs none
  | c :: cs, some pend =>
    if c = '%' then
      if pend = [] then '%' :: envAux env cs (some [])
      else (jsEnvStr (env pend.reverse.asString)).toList ++ envAux env cs none
    else envAux env cs (some (c :: pend))

/-- The `%NAME%` replacement of history.settings.ts line 129. -/
def envReplace (env : String → Option String) (s : String) : String :=
  (envAux env s.toList none).asString

/-- `.replace(/^~/, os.homedir())` of history.settings.ts line 131: a single
leading tilde is replaced by the home directory. -/
def tildeReplace (home : String) (s : String) : String :=
  match s.toList with
  | '~' :: rest => home ++ rest.asString
  | _ => s

/-- Lines 127-131 of history.settings.ts: environment-variable expansion
followed by leading-tilde expansion. -/
def resolveTokens (env : String → Option String) (home : String) (s : String) : String :=
  tildeReplace home (envReplace env s)

/-- A successful match of the regex `/\$\x7bworkspaceFolder(?:\s*:\s*(.*))?\x7d/i`
of history.settings.ts line 137: start index, matched text and the optional
captured qualifier. -/
structure WsMatch where
  index : Nat
  matched : String
  qualifier : Option String
deriving Repr, DecidableEq

/-- Case-insensitive comparison of the (lowercase) pattern literal against the
head of the input. -/
def ciStarts : List Char → List Char → Bool
  | [], _ => true
  | _ :: _, [] => false
  | a :: as, b :: bs => (a == b.toLower) && ciStarts as bs

/-- The literal head of the token regex, lowercased. -/
def wsTokenLit : List Char := "$\x7bworkspacefolder".toList

/-- Index of the last occurrence of `t`, the position a greedy `.*` followed by
a literal character backtracks to. -/
def lastIdx (t : Char) : List Char → Option Nat
  | [] => none
  | c :: cs =>
    match lastIdx t cs with
    | some j => some (j + 1)
    | none => if c = t then some 0 else none

/-- Membership of the JS `\s` class (common whitespace characters). -/
def isSpaceJS (c : Char) : Bool := c = ' ' || c = '\t' || c = '\n' || c = '\r'

/-- Attempt of the greedy optional group `(?:\s*:\s*(.*))?` plus the closing
brace, on the characters following the literal: returns the number of consumed
characters and the captured group. -/
def tryQualifier (rest : List Char) : Option (Nat × Option (List Char)) :=
  let r1 := rest.dropWhile isSpaceJS
  let sp1 := rest.length - r1.length
  match r1 with
  | ':' :: r2 =>
    let r3 := r2.dropWhile isSpaceJS
    let sp2 := r2.length - r3.length
    match lastIdx '\x7d' r3 with
    | some j => some (sp1 + 1 + sp2 + j + 1, some (r3.take j))
    | none => none
  | _ => none

/-- Attempt a match of the whole token regex at the head of `s`: the literal,
then the qualifier group (tried first, being greedy), then the bare closing
brace. -/
def tryMatchAt (s : List Char) : Option (Nat × Option (List Char)) :=
  if ciStarts wsTokenLit s then
    let rest := s.drop wsTokenLit.length
    match tryQualifier rest with
    | some (len, q) => some (wsTokenLit.length + len, q)
    | none =>
      match rest with
      | '\x7d' :: _ => some (wsTokenLit.length + 1, none)
      | _ => none
  else none

/-- Left-to-right scan of `String.prototype.match` with a non-global regex:
first position where the token pattern matches. -/
def matchWsAux : List Char → Nat → Option WsMatch
  | [], _ => none
  | c :: cs, i =>
    match tryMatchAt (c :: cs) with
    | some (len, q) => some ⟨i, ((c :: cs).take len).asString, q.map List.asString⟩
    | none => matchWsAux cs (i + 1)

/-- `historyPath.match(/\$\x7bworkspaceFolder(?:\s*:\s*(.*))?\x7d/i)` of
history.settings.ts line 137. -/
def matchWsToken (s : String) : Option WsMatch := matchWsAux s.toList 0

/-- Decimal value of a digit string. -/
def digitsToNat (l : List Char) : Nat := l.foldl (fun acc c => acc * 10 + (c.toNat - 48)) 0

/-- The test `Number.isInteger(wsId - 1)` of history.settings.ts line 148, on
the decimal fragment of JS numeric string coercion: the trimmed string is empty
(coerces to 0) or consists of decimal digits. -/
def jsNumeric (q : String) : Option Nat :=
  let t := ((q.toList.dropWhile isSpaceJS).reverse.dropWhile isSpaceJS).reverse
  if t = [] then some 0
  else if t.all Char.isDigit then some (digitsToNat t) else none

/-- `Number.parseInt(q, 10)` of history.settings.ts line 148 (decimal
fragment): skip leading whitespace, read a digit run; no digits is NaN. -/
def parseIntJS (q : String) : Option Nat :=
  let t := q.toList.dropWhile isSpaceJS
  let d := t.takeWhile Char.isDigit
  if d = [] then none else some (digitsToNat d)

/-- A `vscode.WorkspaceFolder`: display name, filesystem path and position in
the known-roots sequence. -/
structure WorkspaceFolder where
  name : String
  fsPath : String
  index : Nat
deriving Repr, DecidableEq

/-- `vscode.workspace.workspaceFolders.find(...)` of history.settings.ts lines
147-149: numeric-looking qualifiers select by index via `parseInt`, others by
display name. -/
def findWsFolder (ws : List WorkspaceFolder) (q : String) : Option WorkspaceFolder :=
  if (jsNumeric q).isSome then
    match parseIntJS q with
    | some n => ws.find? (fun w => w.index == n)
    | none => none
  else ws.find? (fun w => w.name == q)

/-- Node `path.join` on two segments (POSIX fragment: empty segments are
skipped, no dot-dot normalisation). -/
def joinPath (a b : String) : String :=
  if a = "" then b else if b = "" then a else a ++ "/" ++ b

/-- Node `path.join` on three segments. -/
def join3 (a b c : String) : String := joinPath (joinPath a b) c

/-- Node `path.basename`: drop trailing separators, then keep the last
component. -/
def basename (s : String) : String :=
  (((s.toList.reverse.dropWhile (· = '/')).takeWhile (· ≠ '/')).reverse).asString

/-- The `is-path-inside` package (history.settings.ts lines 214-218) on
normalised absolute paths: `test` is a strict descendant of `parent`; a path is
never inside itself. -/
def pathIsInside (test parent : String) : Bool :=
  (test != parent) && (parent ++ "/").toList.isPrefixOf test.toList

/-- JS `String.prototype.replace` with a plain-string pattern: replace the
first occurrence only. -/
def replaceFirstAux (pat rep : List Char) : List Char → List Char
  | [] => []
  | c :: cs =>
    if pat.isPrefixOf (c :: cs) then rep ++ (c :: cs).drop pat.length
    else c :: replaceFirstAux pat rep cs

/-- `historyPath.replace(match[0], historyWS.fsPath)` of history.settings.ts
line 160. -/
def replaceFirst (s pat rep : String) : String :=
  (replaceFirstAux pat.toList rep.toList s.toList).asString

/-- The `time-machine.*` configuration surface read by `HistorySettings.read`,
with values as `config.get` returns them (`none` models `undefined`). -/
structure Config where
  enabled : Nat
  exclude : Option (List String)
  path : Option String
  absolute : Bool
  daysLimit : Option Int
  saveDelay : Option Int
  maxDisplay : Option Int
  dateLocale : Option String
deriving Repr, DecidableEq

/-- `IHistorySettings` of history.settings.ts.  `historyPath = none` models
both `null` and `undefined`; `absolute = none` models `undefined`. -/
structure IHistorySettings where
  folder : Option String
  daysLimit : Int
  saveDelay : Int
  maxDisplay : Int
  dateLocale : Option String
  exclude : List String
  enabled : Bool
  historyPath : Option String
  absolute : Option Bool
deriving Repr, DecidableEq

/-- JS `x || d` on an optional number: `undefined` and 0 are falsy. -/
def jsOrNum (v : Option Int) (d : Int) : Int :=
  match v with
  | some x => if x = 0 then d else x
  | none => d

/-- JS `s || undefined` on an optional string: the empty string is falsy. -/
def jsOrStr (v : Option String) : Option String :=
  match v with
  | some s => if s = "" then none else some s
  | none => none

/-- The built-in exclusion list of history.settings.ts lines 201-207. -/
def defaultExclude : List String :=
  ["**/.history/**", "**/.vscode/**", "**/node_modules/**", "**/typings/**", "**/out/**"]

/-- Lines 181-185 of history.settings.ts: empty or unset `path` setting. -/
def fallbackEmptyPath (workspacefolder : Option String) : Option String × Option Bool :=
  match workspacefolder with
  | some w => (some (joinPath w ".history"), some false)
  | none => (none, none)

/-- Lines 166-180 of history.settings.ts: given the resolved template `hp` and
the history-target workspace path `historyWS` (present when a token was
substituted), finish the store root and fix the `absolute` flag.  `Always` is
the enabled value 1. -/
def finishPath (cfg : Config) (workspacefolder : Option String)
    (historyWS : Option String) (hp : String) : Option String × Option Bool :=
  if hp ≠ "" then
    if cfg.absolute || (workspacefolder.isNone && cfg.enabled == 1) then
      (some (joinPath hp ".history"), some true)
    else
      match workspacefolder with
      | some w =>
        let suffix :=
          match historyWS with
          | some hw => if pathIsInside w hw then "" else basename w
          | none => basename w
        (some (join3 hp ".history" suffix), some cfg.absolute)
      | none => (some hp, some cfg.absolute)
  else (some hp, none)

/-- Lines 139-158 of history.settings.ts: select the history-target workspace
for a matched token — `none` both on the non-start error (`match.index > 1`)
and on an unresolvable reference. -/
def pickHistoryWS (workspacefolder : Option String) (ws : List WorkspaceFolder)
    (m : WsMatch) : Option String :=
  if m.index > 1 then none
  else
    match m.qualifier with
    | some q =>
      if q ≠ "" then (findWsFolder ws q).map WorkspaceFolder.fsPath
      else workspacefolder
    | none => workspacefolder

/-- Lines 137-180 of history.settings.ts: token matching, substitution
(`historyPath.replace(match[0], historyWS.fsPath)`) and the finishing joins,
on the expanded path `p1`. -/
def tokenStage (cfg : Config) (workspacefolder : Option String)
    (ws : List WorkspaceFolder) (p1 : String) : Option String × Option Bool :=
  match matchWsToken p1 with
  | some m =>
    match pickHistoryWS workspacefolder ws m with
    | some hw => finishPath cfg workspacefolder (some hw) (replaceFirst p1 m.matched hw)
    | none => (none, none)
  | none => finishPath cfg workspacefolder none p1

/-- Lines 126-185 of history.settings.ts: dispatch on the raw `path` value
(truthy string or not). -/
def pathStage (cfg : Config) (workspacefolder : Option String)
    (ws : List WorkspaceFolder) (env : String → Option String) (home : String) :
    Option String → Option String × Option Bool
  | some p =>
    if p ≠ "" then tokenStage cfg workspacefolder ws (resolveTokens env home p)
    else fallbackEmptyPath workspacefolder
  | none => fallbackEmptyPath workspacefolder

/-- Lines 124-189 of history.settings.ts: compute the `historyPath` /
`absolute` pair.  `Never` is the enabled value 0. -/
def computeHistoryPath (workspacefolder : Option String) (ws : List WorkspaceFolder)
    (cfg : Config) (env : String → Option String) (home : String) :
    Option String × Option Bool :=
  if cfg.enabled ≠ 0 then pathStage cfg workspacefolder ws env home cfg.path
  else (none, none)

/-- Line 192 of history.settings.ts: normalise separators to the host
convention. -/
def sepNorm (sep : Char) (s : String) : String :=
  (s.toList.map (fun c => if c = '/' then sep else c)).asString

/-- Lines 191-211 of history.settings.ts: assemble the returned record.  The
separator normalisation is guarded by truthiness, so an empty `historyPath`
string is kept as-is. -/
def mkSettings (workspacefolder : Option String) (cfg : Config)
    (hp : Option String) (abs : Option Bool) (sep : Char) : IHistorySettings :=
  let hp2 : Option String :=
    match hp with
    | some s => if s ≠ "" then some (sepNorm sep s) else some s
    | none => none
  { folder := workspacefolder
    daysLimit := jsOrNum cfg.daysLimit 30
    saveDelay := jsOrNum cfg.saveDelay 0
    maxDisplay := jsOrNum cfg.maxDisplay 10
    dateLocale := jsOrStr cfg.dateLocale
    exclude := cfg.exclude.getD defaultExclude
    enabled := match hp2 with | some s => s != "" | none => false
    historyPath := hp2
    absolute := abs }

namespace HistorySettings

/-- `HistorySettings.read` (history.settings.ts lines 94-212), with the
process environment, the home directory and the path separator passed
explicitly. -/
def read (workspacefolder : Option String) (ws : List WorkspaceFolder)
    (cfg : Config) (env : String → Option String) (home : String) (sep : Char) :
    IHistorySettings :=
  let r := computeHistoryPath workspacefolder ws cfg env home
  mkSettings workspacefolder cfg r.1 r.2 sep

/-- The cache-lookup predicate of history.settings.ts lines 65-71:
`value.folder.fsPath === folder.fsPath` when both are present, strict equality
(both `undefined`) otherwise. -/
def folderMatch : Option String → Option String → Bool
  | some a, some b => b == a
  | none, none => true
  | _, _ => false

/-- `HistorySettings.get` (history.settings.ts lines 45-77).  The owning
workspace folder computed by `vscode.workspace.getWorkspaceFolder` is passed in
as `folder`; the settings cache is the explicit state. -/
def get (folder : Option String) (ws : List WorkspaceFolder) (cfg : Config)
    (env : String → Option String) (home : String) (sep : Char)
    (st : List IHistorySettings) : IHistorySettings × List IHistorySettings :=
  match st.find? (fun v => folderMatch folder v.folder) with
  | some r => (r, st)
  | none =>
    let r := read folder ws cfg env home sep
    (r, st ++ [r])

/-- `HistorySettings.clear` (history.settings.ts lines 79-81). -/
def clear (_st : List IHistorySettings) : List IHistorySettings := []

end HistorySettings

/-! ## Revision codec

The history.controller.ts implementation is not among the sources (only its
test files are), so the codec below is modelled from section 4.3 of the
specification, cross-checked against the expectations of
src/history.controller.spec.ts. -/

/-- Modelled from the spec: the in-memory timestamp of a revision, with the
month 0-based as in a JS `Date` (section 4.3). -/
structure TimeSpec where
  year : Nat
  month : Nat
  day : Nat
  hour : Nat
  minute : Nat
  second : Nat
deriving Repr, DecidableEq

/-- The character of a decimal digit. -/
def dchar : Nat → Char
  | 0 => '0'
  | 1 => '1'
  | 2 => '2'
  | 3 => '3'
  | 4 => '4'
  | 5 => '5'
  | 6 => '6'
  | 7 => '7'
  | 8 => '8'
  | _ => '9'

/-- The decimal digit character at the units place of `n`. -/
def digitChar (n : Nat) : Char := dchar (n % 10)

/-- Two-digit zero-padded decimal rendering. -/
def pad2 (n : Nat) : List Char := [digitChar (n / 10), digitChar n]

/-- Four-digit zero-padded decimal rendering. -/
def pad4 (n : Nat) : List Char := [digitChar (n / 1000), digitChar (n / 100), digitChar (n / 10), digitChar n]

/-- Modelled from the spec: the on-disk 14-digit block `YYYYMMDDhhmmss`, month
1-based (section 4.3). -/
def encodeTimestamp (t : TimeSpec) : String :=
  (pad4 t.year ++ pad2 (t.month + 1) ++ pad2 t.day ++ pad2 t.hour ++
    pad2 t.minute ++ pad2 t.second).asString

/-- Modelled from the spec: `encode(sourceName, ext, timestamp)` builds
`<stem>_<YYYYMMDDhhmmss><ext>` (section 4.3; the history.controller.ts
implementation is absent from the sources). -/
def encodeFile (stem ext : String) (t : TimeSpec) : String :=
  stem ++ "_" ++ encodeTimestamp t ++ ext

/-- Numeric value of a digit character. -/
def charDigit (c : Char) : Nat := c.toNat - 48

/-- Modelled from the spec: parse exactly fourteen digits positionally as
`YYYY MM DD hh mm ss`, converting the month to 0-based (section 4.3). -/
def tsOfDigits : List Char → Option TimeSpec
  | [y1, y2, y3, y4, mo1, mo2, d1, d2, h1, h2, mi1, mi2, s1, s2] =>
    if ([y1, y2, y3, y4, mo1, mo2, d1, d2, h1, h2, mi1, mi2, s1, s2].all Char.isDigit) then
      some
        { year := ((charDigit y1 * 10 + charDigit y2) * 10 + charDigit y3) * 10 + charDigit y4
          month := (charDigit mo1 * 10 + charDigit mo2) - 1
          day := charDigit d1 * 10 + charDigit d2
          hour := charDigit h1 * 10 + charDigit h2
          minute := charDigit mi1 * 10 + charDigit mi2
          second := charDigit s1 * 10 + charDigit s2 }
    else none
  | _ => none

/-- The file name: the text after the last separator. -/
def fileBaseName (p : String) : String :=
  ((p.toList.reverse.takeWhile (· ≠ '/')).reverse).asString

/-- Node-style extension split (`path.parse`): break at the last dot when it
sits at a positive index of the base name; otherwise the extension is empty. -/
def splitExtension (base : String) : String × String :=
  match lastIdx '.' base.toList with
  | some i =>
    if 0 < i then ((base.toList.take i).asString, (base.toList.drop i).asString)
    else (base, "")
  | none => (base, "")

/-- Modelled from the spec: split the extension-free name into a non-empty stem
and a trailing underscore-plus-14-digit timestamp block, the separator being
the last underscore immediately preceding fourteen digits at the end
(section 4.3). -/
def parseTimestampSuffix (name : String) : Option (String × TimeSpec) :=
  let r := name.toList.reverse
  match r.drop 14 with
  | '_' :: rest =>
    if rest ≠ [] then
      match tsOfDigits (r.take 14).reverse with
      | some t => some (rest.reverse.asString, t)
      | none => none
    else none
  | _ => none

/-- `IHistoryFileProperties` of history.controller.ts: decoded identity of a
file, with `date = none` when the name carries no timestamp. -/
structure IHistoryFileProperties where
  file : String
  name : String
  ext : String
  date : Option TimeSpec
deriving Repr, DecidableEq

/-- Modelled from the spec: `decodeFile` of history.controller.ts (section 4.3;
the implementation is absent from the sources — only its tests are present).
`isHistory` tells whether the input lies inside the history store: a malformed
timestamp block yields a decode failure there, and a timestamp-free record
outside of it. -/
def decodeFile (p : String) (isHistory : Bool) : Option IHistoryFileProperties :=
  let base := fileBaseName p
  let ne := splitExtension base
  match parseTimestampSuffix ne.1 with
  | some (stem, t) => some ⟨p, stem, ne.2, some t⟩
  | none => if isHistory then none else some ⟨p, ne.1, ne.2, none⟩

/-- Timestamp fields within the ranges the encoding convention represents. -/
def validTimeSpec (t : TimeSpec) : Bool :=
  t.year ≤ 9999 && t.month ≤ 11 && 1 ≤ t.day && t.day ≤ 31 &&
  t.hour ≤ 23 && t.minute ≤ 59 && t.second ≤ 59

/-- Extension shape for which the last-dot split is the encoding's own
boundary: either no extension (and then no dot past the stem's first
character), or a leading dot followed by a dot-free slash-free tail. -/
def extOk (stem ext : String) : Bool :=
  match ext.toList with
  | [] => (stem.toList.drop 1).all (· ≠ '.')
  | '.' :: etail => etail.all (fun c => c ≠ '.' && c ≠ '/')
  | _ => false

/-- A triple for which the encoding convention of section 4.3 is well-defined:
a non-empty slash-free stem, a compatible extension, and in-range timestamp
fields. -/
def validTriple (stem ext : String) (t : TimeSpec) : Bool :=
  (stem != "") && stem.toList.all (· ≠ '/') && extOk stem ext && validTimeSpec t

/-- The filename of `p` lacks a well-formed trailing underscore-plus-14-digit
timestamp block. -/
def lacksTimestamp (p : String) : Bool :=
  (parseTimestampSuffix (splitExtension (fileBaseName p)).1).isNone

/-- The record invariant of section 3 of the specification: `enabled` holds
exactly when `historyPath` is a non-empty string. -/
def settingsInvariant (r : IHistorySettings) : Prop :=
  r.enabled = true ↔ ∃ s, r.historyPath = some s ∧ s ≠ ""

/-! ## Concrete fixtures used by witnesses and counterexamples -/

/-- An empty process environment. -/
def envNone : String → Option String := fun _ => none

/-- A process environment with one defined variable. -/
def envOneVar : String → Option String :=
  fun k => if k = "APPDATA" then some "/appdata" else none

/-- The default configuration of the repository's test suite. -/
def cfgFix : Config :=
  { enabled := 1
    exclude := some defaultExclude
    path := some ""
    absolute := false
    daysLimit := some 30
    saveDelay := some 0
    maxDisplay := some 10
    dateLocale := some "" }

/-- Configuration with a workspace-folder token at index 1 of the path. -/
def cfgTokenAt1 : Config := { cfgFix with path := some "a$\x7bworkspaceFolder\x7d/x" }

/-- Configuration with a workspace-folder token deep inside the path. -/
def cfgTokenDeep : Config :=
  { cfgFix with path := some "/some/path/$\x7bworkspaceFolder\x7d/history" }

/-- Configuration with `daysLimit` set to 0. -/
def cfgDays0 : Config := { cfgFix with daysLimit := some 0 }

/-- Configuration with `enabled` set to 0 (Never). -/
def cfgNever : Config := { cfgFix with enabled := 0 }

/-- Configuration with a named workspace-folder token. -/
def cfgNamedWs : Config :=
  { cfgFix with path := some "$\x7bworkspaceFolder: history\x7d/custom-path" }

/-- The two-root workspace of the repository's test suite. -/
def wsTwoRoots : List WorkspaceFolder :=
  [⟨"current", "/current-workspace", 0⟩, ⟨"history", "/history-workspace", 1⟩]

/-! ## General lemmas about the embedding -/

theorem toList_append (s t : String) : (s ++ t).toList = s.toList ++ t.toList := by
  cases s; cases t; rfl

theorem ne_empty_iff_toList {s : String} : s ≠ "" ↔ s.toList ≠ [] := by
  constructor
  · intro h hl
    exact h (String.toList_inj.mp (by simpa using hl))
  · intro h hs
    exact h (by simp [hs])

theorem joinPath_ne_of_left {a : String} (b : String) (h : a ≠ "") : joinPath a b ≠ "" := by
  unfold joinPath
  rw [if_neg h]
  by_cases hb : b = ""
  · rw [if_pos hb]; exact h
  · rw [if_neg hb]
    rw [ne_empty_iff_toList, toList_append, toList_append]
    simp [ne_empty_iff_toList.mp h]

theorem joinPath_ne_of_right (a : String) {b : String} (h : b ≠ "") : joinPath a b ≠ "" := by
  unfold joinPath
  by_cases ha : a = ""
  · rw [if_pos ha]; exact h
  · rw [if_neg ha, if_neg h]
    rw [ne_empty_iff_toList, toList_append, toList_append]
    simp [ne_empty_iff_toList.mp ha]

theorem sepNorm_ne (sep : Char) {s : String} (h : s ≠ "") : sepNorm sep s ≠ "" := by
  unfold sepNorm
  intro he
  have h1 : (s.toList.map fun c => if c = '/' then sep else c) = [] := by
    have h2 := congrArg String.toList he
    rw [List.toList_asString] at h2
    simpa using h2
  exact ne_empty_iff_toList.mp h (List.map_eq_nil_iff.mp h1)

theorem folderMatch_refl (f : Option String) : HistorySettings.folderMatch f f = true := by
  cases f <;> simp [HistorySettings.folderMatch]

theorem read_folder (wf : Option String) (ws : List WorkspaceFolder) (cfg : Config)
    (env : String → Option String) (home : String) (sep : Char) :
    (HistorySettings.read wf ws cfg env home sep).folder = wf := rfl

-- On every branch that assigns the absolute flag, the finished store root is a
-- non-empty string (history.settings.ts lines 166-185).
theorem finishPath_abs {cfg : Config} {wf historyWS : Option String} {hp : String} {b : Bool}
    (h : (finishPath cfg wf historyWS hp).2 = some b) :
    ∃ s, (finishPath cfg wf historyWS hp).1 = some s ∧ s ≠ "" := by
  unfold finishPath at h ⊢
  by_cases hhp : hp = ""
  · rw [if_neg (by simpa using hhp)] at h
    simp at h
  · rw [if_pos hhp] at h ⊢
    by_cases hc : (cfg.absolute || (wf.isNone && cfg.enabled == 1)) = true
    · rw [if_pos hc] at h ⊢
      exact ⟨_, rfl, joinPath_ne_of_left _ hhp⟩
    · rw [if_neg hc] at h ⊢
      cases wf with
      | some w => exact ⟨_, rfl, joinPath_ne_of_left _ (joinPath_ne_of_left _ hhp)⟩
      | none => exact ⟨_, rfl, hhp⟩

theorem fallbackEmptyPath_abs {wf : Option String} {b : Bool}
    (h : (fallbackEmptyPath wf).2 = some b) :
    ∃ s, (fallbackEmptyPath wf).1 = some s ∧ s ≠ "" := by
  cases wf with
  | some w => exact ⟨_, rfl, joinPath_ne_of_right _ (by decide)⟩
  | none => simp [fallbackEmptyPath] at h

theorem tokenStage_abs {cfg : Config} {wf : Option String} {ws : List WorkspaceFolder}
    {p1 : String} {b : Bool} (h : (tokenStage cfg wf ws p1).2 = some b) :
    ∃ s, (tokenStage cfg wf ws p1).1 = some s ∧ s ≠ "" := by
  cases hm : matchWsToken p1 with
  | none =>
    simp only [tokenStage, hm] at h ⊢
    exact finishPath_abs h
  | some m =>
    cases hws : pickHistoryWS wf ws m with
    | none => simp [tokenStage, hm, hws] at h
    | some hw =>
      simp only [tokenStage, hm, hws] at h ⊢
      exact finishPath_abs h

theorem pathStage_abs {cfg : Config} {wf : Option String} {ws : List WorkspaceFolder}
    {env : String → Option String} {home : String} {po : Option String} {b : Bool}
    (h : (pathStage cfg wf ws env home po).2 = some b) :
    ∃ s, (pathStage cfg wf ws env home po).1 = some s ∧ s ≠ "" := by
  cases po with
  | none => exact fallbackEmptyPath_abs h
  | some p =>
    by_cases hpe : p = ""
    · simp only [pathStage, hpe] at h ⊢
      exact fallbackEmptyPath_abs h
    · simp only [pathStage, if_pos hpe] at h ⊢
      exact tokenStage_abs h

theorem computeHistoryPath_abs {wf : Option String} {ws : List WorkspaceFolder} {cfg : Config}
    {env : String → Option String} {home : String} {b : Bool}
    (h : (computeHistoryPath wf ws cfg env home).2 = some b) :
    ∃ s, (computeHistoryPath wf ws cfg env home).1 = some s ∧ s ≠ "" := by
  unfold computeHistoryPath at h ⊢
  by_cases he : cfg.enabled = 0
  · rw [if_neg (by simpa using he)] at h
    simp at h
  · rw [if_pos he] at h ⊢
    exact pathStage_abs h

theorem mkSettings_enabled_of_some {wf : Option String} {cfg : Config} {abs : Option Bool}
    {sep : Char} {s : String} (h : s ≠ "") :
    (mkSettings wf cfg (some s) abs sep).enabled = true := by
  simp only [mkSettings, if_pos h]
  simpa [bne_iff_ne] using sepNorm_ne sep h

theorem mkSettings_invariant (wf : Option String) (cfg : Config) (hp : Option String)
    (abs : Option Bool) (sep : Char) : settingsInvariant (mkSettings wf cfg hp abs sep) := by
  cases hp with
  | none => simp [settingsInvariant, mkSettings]
  | some s =>
    by_cases h : s = ""
    · subst h
      simp [settingsInvariant, mkSettings]
    · simp only [settingsInvariant, mkSettings, if_pos h]
      constructor
      · intro _
        exact ⟨sepNorm sep s, rfl, sepNorm_ne sep h⟩
      · intro _
        simpa [bne_iff_ne] using sepNorm_ne sep h

theorem asString_append (l1 l2 : List Char) : (l1 ++ l2).asString = l1.asString ++ l2.asString :=
  rfl

theorem data_asString (s : String) : s.data.asString = s := rfl

-- A percent-free prefix passes through the replacement scan unchanged.
theorem envAux_notoken (env : String → Option String) (a rest : List Char)
    (ha : ∀ c ∈ a, c ≠ '%') :
    envAux env (a ++ rest) none = a ++ envAux env rest none := by
  induction a with
  | nil => simp
  | cons c a ih =>
    have hc : c ≠ '%' := ha c (by simp)
    simp only [List.cons_append, envAux, if_neg hc, List.append_eq]
    rw [ih (fun x hx => ha x (by simp [hx]))]

-- Inside a candidate token, a percent-free run up to the closing percent sign
-- completes the match with the accumulated key.
theorem envAux_token (env : String → Option String) (n : List Char) :
    ∀ p rest : List Char, (∀ c ∈ n, c ≠ '%') → p.reverse ++ n ≠ [] →
    envAux env (n ++ '%' :: rest) (some p)
      = (jsEnvStr (env (p.reverse ++ n).asString)).toList ++ envAux env rest none := by
  induction n with
  | nil =>
    intro p rest _ hne
    have hp : p ≠ [] := by
      intro h
      exact hne (by simp [h])
    simp only [List.nil_append, envAux, if_pos rfl, if_neg hp]
    simp
  | cons x n ih =>
    intro p rest hn hne
    have hx : x ≠ '%' := hn x (by simp)
    simp only [List.cons_append, envAux, if_neg hx, List.append_eq]
    rw [ih (x :: p) rest (fun c hc => hn c (by simp [hc])) (by simp)]
    have harr : (x :: p).reverse ++ n = p.reverse ++ x :: n := by simp
    rw [harr]

/-! ### Codec lemmas -/

theorem dchar_spec : ∀ k, k < 10 → charDigit (dchar k) = k ∧ (dchar k).isDigit = true := by
  decide

theorem charDigit_digitChar (n : Nat) : charDigit (digitChar n) = n % 10 :=
  (dchar_spec (n % 10) (Nat.mod_lt n (by norm_num))).1

theorem digitChar_isDigit (n : Nat) : (digitChar n).isDigit = true :=
  (dchar_spec (n % 10) (Nat.mod_lt n (by norm_num))).2

theorem isDigit_ne {c x : Char} (h : c.isDigit = true) (hx : x.isDigit = false) : c ≠ x := by
  rintro rfl
  rw [h] at hx
  exact absurd hx (by decide)

theorem encodeTimestamp_digits (t : TimeSpec) :
    ∀ c ∈ (encodeTimestamp t).toList, c.isDigit = true := by
  intro c hc
  simp only [encodeTimestamp, List.toList_asString, pad4, pad2, List.cons_append,
    List.nil_append, List.mem_cons, List.not_mem_nil, or_false] at hc
  rcases hc with rfl | rfl | rfl | rfl | rfl | rfl | rfl | rfl | rfl | rfl | rfl | rfl | rfl | rfl <;>
    exact digitChar_isDigit _

theorem encodeTimestamp_length (t : TimeSpec) : (encodeTimestamp t).toList.length = 14 := by
  simp [encodeTimestamp, List.toList_asString, pad4, pad2]

theorem tsOfDigits_encode (t : TimeSpec) (ht : validTimeSpec t = true) :
    tsOfDigits (encodeTimestamp t).toList = some t := by
  obtain ⟨y, mo, d, h, mi, s⟩ := t
  simp only [validTimeSpec, Bool.and_eq_true, decide_eq_true_eq] at ht
  obtain ⟨⟨⟨⟨⟨⟨hy, hmo⟩, hd1⟩, hd2⟩, hh⟩, hmi⟩, hs⟩ := ht
  simp only [encodeTimestamp, List.toList_asString, pad4, pad2, List.cons_append,
    List.nil_append]
  simp only [tsOfDigits, List.all_cons, List.all_nil, digitChar_isDigit, Bool.and_self,
    Bool.and_true, Bool.true_and, if_pos]
  simp only [charDigit_digitChar, Option.some.injEq, TimeSpec.mk.injEq]
  refine ⟨?_, ?_, ?_, ?_, ?_, ?_⟩ <;> omega

theorem fileBaseName_eq {s : String} (h : ∀ c ∈ s.toList, c ≠ '/') : fileBaseName s = s := by
  unfold fileBaseName
  rw [List.takeWhile_eq_self_iff.mpr ?hall]
  · rw [List.reverse_reverse]
    exact String.asString_toList s
  case hall =>
    intro x hx
    simpa using h x (List.mem_reverse.mp hx)

theorem lastIdx_eq_none {t : Char} {l : List Char} (h : ∀ c ∈ l, c ≠ t) : lastIdx t l = none := by
  induction l with
  | nil => rfl
  | cons c cs ih =>
    simp only [lastIdx, ih (fun x hx => h x (by simp [hx]))]
    rw [if_neg (h c (by simp))]

theorem lastIdx_append_some {t : Char} {ys : List Char} {j : Nat} (xs : List Char)
    (hy : lastIdx t ys = some j) : lastIdx t (xs ++ ys) = some (xs.length + j) := by
  induction xs with
  | nil => simpa using hy
  | cons x xs ih =>
    simp only [List.cons_append, List.append_eq, lastIdx, ih, List.length_cons,
      Option.some.injEq]
    omega

theorem lastIdx_append_none {t : Char} {ys : List Char} (xs : List Char)
    (hy : lastIdx t ys = none) : lastIdx t (xs ++ ys) = lastIdx t xs := by
  induction xs with
  | nil => simpa using hy
  | cons x xs ih => simp only [List.cons_append, List.append_eq, lastIdx, ih]

-- Extension split when the base name is `nm` followed by a dot-free extension
-- tail: the break is at the dot.
theorem splitExtension_ext {base : String} {nmL etail : List Char}
    (h : base.toList = nmL ++ '.' :: etail) (hnm : nmL ≠ [])
    (het : ∀ c ∈ etail, c ≠ '.') :
    splitExtension base = (nmL.asString, ('.' :: etail).asString) := by
  have h1 : lastIdx '.' ('.' :: etail) = some 0 := by
    simp [lastIdx, lastIdx_eq_none het]
  have h2 : lastIdx '.' (nmL ++ '.' :: etail) = some (nmL.length + 0) :=
    lastIdx_append_some nmL h1
  have hpos : 0 < nmL.length + 0 := by
    cases nmL with
    | nil => exact absurd rfl hnm
    | cons a l => simp
  simp only [splitExtension, h, h2, Nat.add_zero]
  rw [List.take_left, List.drop_left]
  rw [if_pos (show 0 < nmL.length by omega)]

-- Extension split when every character past the first is not a dot: the
-- extension is empty.
theorem splitExtension_nodot {base : String} {c : Char} {rest : List Char}
    (h : base.toList = c :: rest) (hrest : ∀ x ∈ rest, x ≠ '.') :
    splitExtension base = (base, "") := by
  have h1 : lastIdx '.' rest = none := lastIdx_eq_none hrest
  by_cases hc : c = '.'
  · simp only [splitExtension, h, lastIdx, h1, if_pos hc]
    simp
  · simp only [splitExtension, h, lastIdx, h1, if_neg hc]

theorem parseTimestampSuffix_encode {name : String} {stemL : List Char} {t : TimeSpec}
    (h : name.toList = stemL ++ '_' :: (encodeTimestamp t).toList)
    (hstem : stemL ≠ []) (ht : validTimeSpec t = true) :
    parseTimestampSuffix name = some (stemL.asString, t) := by
  have hrevlen : (encodeTimestamp t).toList.reverse.length = 14 := by
    rw [List.length_reverse]
    exact encodeTimestamp_length t
  have hrev : name.toList.reverse
      = (encodeTimestamp t).toList.reverse ++ '_' :: stemL.reverse := by
    rw [h]
    simp
  have hdrop : name.toList.reverse.drop 14 = '_' :: stemL.reverse := by
    rw [hrev, List.drop_left' hrevlen]
  have htake : name.toList.reverse.take 14 = (encodeTimestamp t).toList.reverse := by
    rw [hrev, List.take_left' hrevlen]
  have hne : stemL.reverse ≠ [] := by
    intro hx
    exact hstem (by simpa using congrArg List.reverse hx)
  simp only [parseTimestampSuffix, hdrop, htake, List.reverse_reverse, if_pos hne,
    tsOfDigits_encode t ht]

/-! ## Claims -/

/-- C1 (counterexample): resolving the path template `%FOO%/x` in an
environment where `FOO` is undefined yields `undefined/x`, not `/x`: the
replacement callback of line 129 returns `undefined`, which JS string
substitution coerces to the literal text `undefined`, not to the empty
string. -/
theorem c1_counterexample :
    envReplace envNone "%FOO%/x" = "undefined/x" ∧ ("undefined/x" : String) ≠ "/x" := by
  refine ⟨by decide, by decide⟩

/-- C1 (amended): in path template resolution, every `%NAME%` token (non-empty
percent-free name) is replaced by the value of the process environment variable
`NAME`, and when that variable is undefined the token is replaced by the
literal string `undefined` (the JS stringification of the callback's
`undefined` return), after which scanning continues past the token. -/
theorem c1_amended_env_replacement (env : String → Option String) (a n b : String)
    (ha : '%' ∉ a.toList) (hn : '%' ∉ n.toList) (hne : n ≠ "") :
    envReplace env (a ++ "%" ++ n ++ "%" ++ b)
      = a ++ jsEnvStr (env n) ++ envReplace env b := by
  unfold envReplace
  have h1 : (a ++ "%" ++ n ++ "%" ++ b).toList
      = a.toList ++ ('%' :: (n.toList ++ '%' :: b.toList)) := by
    simp [toList_append]
  rw [h1]
  rw [envAux_notoken env a.toList _ (fun c hc => by rintro rfl; exact ha hc)]
  have h2 : envAux env ('%' :: (n.toList ++ '%' :: b.toList)) none
      = envAux env (n.toList ++ '%' :: b.toList) (some []) := by
    simp [envAux]
  rw [h2]
  rw [envAux_token env n.toList [] b.toList (fun c hc => by rintro rfl; exact hn hc)
    (by simpa using ne_empty_iff_toList.mp hne)]
  rw [asString_append, asString_append]
  simp [data_asString, String.append_assoc]

/-- C1 (witness): the amended theorem applied to the template `x%APPDATA%/y`
in an environment defining `APPDATA = /appdata`; the result is
`x/appdata/y`. -/
theorem c1_witness :
    envReplace envOneVar ("x" ++ "%" ++ "APPDATA" ++ "%" ++ "/y")
      = "x" ++ jsEnvStr (envOneVar "APPDATA") ++ envReplace envOneVar "/y" ∧
    envReplace envOneVar "x%APPDATA%/y" = "x/appdata/y" :=
  ⟨c1_amended_env_replacement envOneVar "x" "APPDATA" "/y" (by decide) (by decide)
    (by decide), by decide⟩

/-- C2 (counterexample): in the path `a${workspaceFolder}/x` the workspace
folder token occurs at index 1, which is not the very start of the string, yet
settings resolution does not treat the path as unusable: the token is
substituted and a non-absent `historyPath` is produced, because the source only
errors when `match.index > 1`. -/
theorem c2_counterexample :
    (matchWsToken (resolveTokens envNone "/home/me" "a$\x7bworkspaceFolder\x7d/x")).map
        WsMatch.index = some 1 ∧
    (HistorySettings.read (some "/workspace") [] cfgTokenAt1 envNone "/home/me" '/').historyPath
        = some "a/workspace/x/.history/workspace" ∧
    (HistorySettings.read (some "/workspace") [] cfgTokenAt1 envNone "/home/me" '/').historyPath
        ≠ none := by
  refine ⟨by decide, by decide, by decide⟩

/-- C2 (amended): when the `${workspaceFolder...}` token begins at character
index 2 or later of the expanded path (i.e. with at least two characters before
it), settings resolution reports an error and treats the path as unusable: the
resolved `historyPath` is absent and history is disabled.  (A token at index 0
or 1 is substituted normally, since the source tests `match.index > 1`.) -/
theorem c2_amended_nonstart_token (wf : Option String) (ws : List WorkspaceFolder)
    (cfg : Config) (env : String → Option String) (home : String) (sep : Char)
    (p : String) (m : WsMatch)
    (hp : cfg.path = some p) (hne : p ≠ "")
    (hm : matchWsToken (resolveTokens env home p) = some m) (hidx : 2 ≤ m.index) :
    (HistorySettings.read wf ws cfg env home sep).historyPath = none ∧
    (HistorySettings.read wf ws cfg env home sep).enabled = false := by
  have hgt : m.index > 1 := by omega
  by_cases he : cfg.enabled = 0
  · simp [HistorySettings.read, computeHistoryPath, he, mkSettings]
  · simp [HistorySettings.read, computeHistoryPath, he, hp, pathStage, if_pos hne,
      tokenStage, hm, pickHistoryWS, hgt, mkSettings]

/-- C2 (witness): the amended theorem applied to the configuration
`path = /some/path/${workspaceFolder}/history`, whose token starts at
index 11. -/
theorem c2_witness :
    (HistorySettings.read (some "/workspace") [] cfgTokenDeep envNone "/home/me" '/').historyPath
        = none ∧
    (HistorySettings.read (some "/workspace") [] cfgTokenDeep envNone "/home/me" '/').enabled
        = false :=
  c2_amended_nonstart_token (some "/workspace") [] cfgTokenDeep envNone "/home/me" '/'
    "/some/path/$\x7bworkspaceFolder\x7d/history" ⟨11, "$\x7bworkspaceFolder\x7d", none⟩
    (by decide) (by decide) (by decide) (by decide)

/-- C3 (code bug): with the configuration key `daysLimit` set to 0 the record
returned by `get` carries `daysLimit = 30`, not 0, because line 197 of
history.settings.ts applies the JS default `config.get('daysLimit') || 30` and
0 is falsy — contradicting the repository's own README (`0: no purge`) and the
specification. -/
theorem c3_daysLimit_zero_becomes_30 :
    cfgDays0.daysLimit = some 0 ∧
    (HistorySettings.get (some "/workspace") [] cfgDays0 envNone "/home/me" '/' []).1.daysLimit
        = 30 := by
  refine ⟨rfl, by decide⟩

/-- C4: for every configuration whose non-empty path template resolves usably
via a named/indexed `${workspaceFolder: ...}` token (a match at index 0 or 1
with a non-empty qualifier that finds a root), with the `absolute` flag false
and an owning root present, the final store root is
`<resolved>/.history/<suffix>` — `<resolved>` being the expanded template with
the token replaced by the referenced root's path — where `<suffix>` is empty
exactly when the owning root is a filesystem descendant of the history-target
root, and the owning root's base name otherwise. -/
theorem c4_relative_store_root (w : String) (ws : List WorkspaceFolder) (cfg : Config)
    (env : String → Option String) (home : String) (sep : Char)
    (p q : String) (m : WsMatch) (hw : WorkspaceFolder)
    (hen : cfg.enabled ≠ 0) (hp : cfg.path = some p) (hne : p ≠ "")
    (hm : matchWsToken (resolveTokens env home p) = some m)
    (hidx : m.index ≤ 1) (hq : m.qualifier = some q) (hqne : q ≠ "")
    (hfind : findWsFolder ws q = some hw) (habs : cfg.absolute = false)
    (hres : replaceFirst (resolveTokens env home p) m.matched hw.fsPath ≠ "") :
    (HistorySettings.read (some w) ws cfg env home sep).historyPath
      = some (sepNorm sep
          (join3 (replaceFirst (resolveTokens env home p) m.matched hw.fsPath) ".history"
            (if pathIsInside w hw.fsPath then "" else basename w))) := by
  have hngt : ¬ m.index > 1 := by omega
  have hr : computeHistoryPath (some w) ws cfg env home
      = finishPath cfg (some w) (some hw.fsPath)
          (replaceFirst (resolveTokens env home p) m.matched hw.fsPath) := by
    simp [computeHistoryPath, hen, hp, pathStage, if_pos hne, tokenStage, hm,
      pickHistoryWS, hngt, hq, hqne, hfind]
  have hjoin : join3 (replaceFirst (resolveTokens env home p) m.matched hw.fsPath) ".history"
      (if pathIsInside w hw.fsPath then "" else basename w) ≠ "" :=
    joinPath_ne_of_left _ (joinPath_ne_of_left _ hres)
  have hfin : finishPath cfg (some w) (some hw.fsPath)
      (replaceFirst (resolveTokens env home p) m.matched hw.fsPath)
      = (some (join3 (replaceFirst (resolveTokens env home p) m.matched hw.fsPath) ".history"
          (if pathIsInside w hw.fsPath then "" else basename w)), some false) := by
    simp [finishPath, hres, habs, join3]
  show (mkSettings (some w) cfg (computeHistoryPath (some w) ws cfg env home).1
      (computeHistoryPath (some w) ws cfg env home).2 sep).historyPath = _
  rw [hr, hfin]
  simp [mkSettings, hjoin]

/-- C4 (witness): the theorem applied to the two-root workspace of the test
suite with `path = ${workspaceFolder: history}/custom-path`: the owning root
`/current-workspace` is not inside `/history-workspace`, so the store root is
`/history-workspace/custom-path/.history/current-workspace`. -/
theorem c4_witness :
    (HistorySettings.read (some "/current-workspace") wsTwoRoots cfgNamedWs envNone
        "/home/me" '/').historyPath
      = some (sepNorm '/'
          (join3 (replaceFirst
              (resolveTokens envNone "/home/me" "$\x7bworkspaceFolder: history\x7d/custom-path")
              "$\x7bworkspaceFolder: history\x7d" "/history-workspace") ".history"
            (if pathIsInside "/current-workspace" "/history-workspace" then ""
             else basename "/current-workspace"))) ∧
    (HistorySettings.read (some "/current-workspace") wsTwoRoots cfgNamedWs envNone
        "/home/me" '/').historyPath
      = some "/history-workspace/custom-path/.history/current-workspace" :=
  ⟨c4_relative_store_root "/current-workspace" wsTwoRoots cfgNamedWs envNone "/home/me" '/'
      "$\x7bworkspaceFolder: history\x7d/custom-path" "history"
      ⟨0, "$\x7bworkspaceFolder: history\x7d", some "history"⟩ ⟨"history", "/history-workspace", 1⟩
      (by decide) (by decide) (by decide) (by decide) (by decide) (by decide) (by decide)
      (by decide) (by decide) (by decide),
    by decide⟩

/-- C7: whenever the `enabled` configuration is 0 (Never), the settings record
computed by `get` (on a fresh resolution) has `historyPath` absent and
`enabled = false`, for every file and every other configuration value. -/
theorem c7_enabled_never_disables (wf : Option String) (ws : List WorkspaceFolder)
    (cfg : Config) (env : String → Option String) (home : String) (sep : Char)
    (h : cfg.enabled = 0) :
    (HistorySettings.get wf ws cfg env home sep []).1.historyPath = none ∧
    (HistorySettings.get wf ws cfg env home sep []).1.enabled = false := by
  simp [HistorySettings.get, HistorySettings.read, computeHistoryPath, h, mkSettings]

/-- C7 (witness): the theorem applied to the Never configuration with an owning
root and otherwise default settings. -/
theorem c7_witness :
    (HistorySettings.get (some "/workspace") [] cfgNever envNone "/home/me" '/' []).1.historyPath
        = none ∧
    (HistorySettings.get (some "/workspace") [] cfgNever envNone "/home/me" '/' []).1.enabled
        = false :=
  c7_enabled_never_disables (some "/workspace") [] cfgNever envNone "/home/me" '/' rfl

/-- C8: settings caching — a second `get` call with the same owning-root
identity (or both ownerless) returns the very same settings value and leaves
the cache untouched (no recomputation), and a `get` after `clear` recomputes
fresh settings via `read`. -/
theorem c8_cache_and_clear (folder : Option String) (ws : List WorkspaceFolder)
    (cfg : Config) (env : String → Option String) (home : String) (sep : Char)
    (st : List IHistorySettings) :
    HistorySettings.get folder ws cfg env home sep
        (HistorySettings.get folder ws cfg env home sep st).2
      = HistorySettings.get folder ws cfg env home sep st ∧
    HistorySettings.get folder ws cfg env home sep (HistorySettings.clear st)
      = (HistorySettings.read folder ws cfg env home sep,
          [HistorySettings.read folder ws cfg env home sep]) := by
  constructor
  · cases hf : st.find? (fun v => HistorySettings.folderMatch folder v.folder) with
    | some r => simp [HistorySettings.get, hf]
    | none =>
      simp only [HistorySettings.get, hf]
      rw [List.find?_append, hf]
      simp [List.find?, read_folder, folderMatch_refl]
  · simp [HistorySettings.clear, HistorySettings.get, List.find?]

/-- C9: every settings record returned by `get` (from a cache whose entries
themselves satisfy it) fulfils the invariant: `enabled` is true exactly when
`historyPath` is a non-empty string. -/
theorem c9_enabled_iff_nonempty_path (folder : Option String) (ws : List WorkspaceFolder)
    (cfg : Config) (env : String → Option String) (home : String) (sep : Char)
    (st : List IHistorySettings) (h : ∀ r ∈ st, settingsInvariant r) :
    settingsInvariant (HistorySettings.get folder ws cfg env home sep st).1 := by
  cases hf : st.find? (fun v => HistorySettings.folderMatch folder v.folder) with
  | some r =>
    simp only [HistorySettings.get, hf]
    exact h r (List.mem_of_find?_eq_some hf)
  | none =>
    simp only [HistorySettings.get, hf]
    exact mkSettings_invariant _ _ _ _ _

/-- C9 (witness): the theorem applied to an empty cache and the default test
configuration. -/
theorem c9_witness :
    settingsInvariant
      (HistorySettings.get (some "/workspace") [] cfgFix envNone "/home/me" '/' []).1 :=
  c9_enabled_iff_nonempty_path (some "/workspace") [] cfgFix envNone "/home/me" '/' []
    (by simp)

/-- C10: whenever settings resolution ends with history disabled
(`enabled = false` in the returned record), the `absolute` field is undefined
(`none`) rather than a boolean: a boolean is only ever assigned on branches
that produce a usable (hence enabling) store root. -/
theorem c10_absolute_undefined_when_disabled (wf : Option String)
    (ws : List WorkspaceFolder) (cfg : Config) (env : String → Option String)
    (home : String) (sep : Char)
    (h : (HistorySettings.read wf ws cfg env home sep).enabled = false) :
    (HistorySettings.read wf ws cfg env home sep).absolute = none := by
  cases hab : (computeHistoryPath wf ws cfg env home).2 with
  | none => exact hab
  | some b =>
    obtain ⟨s, hs, hsne⟩ := computeHistoryPath_abs hab
    have hen : (HistorySettings.read wf ws cfg env home sep).enabled = true := by
      show (mkSettings wf cfg (computeHistoryPath wf ws cfg env home).1
        (computeHistoryPath wf ws cfg env home).2 sep).enabled = true
      rw [hs]
      exact mkSettings_enabled_of_some hsne
    rw [h] at hen
    exact absurd hen (by decide)

/-- C10 (witness): the theorem applied to the Never configuration, whose
resolution is disabled. -/
theorem c10_witness :
    (HistorySettings.read (some "/workspace") [] cfgNever envNone "/home/me" '/').absolute
        = none :=
  c10_absolute_undefined_when_disabled (some "/workspace") [] cfgNever envNone "/home/me" '/'
    (by decide)

/-- C6: for every input path whose filename lacks a well-formed trailing
underscore-plus-14-digit timestamp block, decode returns a failure (`none`,
never an exception) when the input looks like a history entry (inside the
store), and a record with `timestamp` absent when it is a plain non-history
path. -/
theorem c6_malformed_decode (p : String) (h : lacksTimestamp p = true) :
    decodeFile p true = none ∧
    decodeFile p false
      = some ⟨p, (splitExtension (fileBaseName p)).1, (splitExtension (fileBaseName p)).2,
          none⟩ := by
  have h' : parseTimestampSuffix (splitExtension (fileBaseName p)).1 = none := by
    simpa [lacksTimestamp, Option.isNone_iff_eq_none] using h
  constructor <;> simp [decodeFile, h']

/-- C6 (witness): the theorem applied to the test input
`/workspace/.history/invalid_filename.ts` — `none` as a history entry; a
timestamp-free record (`invalid_filename`, `.ts`) as a plain path. -/
theorem c6_witness :
    decodeFile "/workspace/.history/invalid_filename.ts" true = none ∧
    decodeFile "/workspace/.history/invalid_filename.ts" false
      = some ⟨"/workspace/.history/invalid_filename.ts",
          (splitExtension (fileBaseName "/workspace/.history/invalid_filename.ts")).1,
          (splitExtension (fileBaseName "/workspace/.history/invalid_filename.ts")).2,
          none⟩ :=
  c6_malformed_decode "/workspace/.history/invalid_filename.ts" (by decide)

/-- C5: revision codec round-trip — for every valid triple
`(stem, ext, timestamp)`, decoding the filename produced by
`encode(stem, ext, timestamp)` yields back exactly that stem, extension and
timestamp (second granularity; the month is 1-based on disk and 0-based in the
in-memory value). -/
theorem c5_codec_roundtrip (stem ext : String) (t : TimeSpec)
    (hv : validTriple stem ext t = true) :
    decodeFile (encodeFile stem ext t) true
      = some ⟨encodeFile stem ext t, stem, ext, some t⟩ := by
  simp only [validTriple, Bool.and_eq_true, bne_iff_ne, ne_eq, List.all_eq_true,
    decide_eq_true_eq] at hv
  obtain ⟨⟨⟨hstem, hslash⟩, hext⟩, ht⟩ := hv
  have hstemL : stem.toList ≠ [] := ne_empty_iff_toList.mp hstem
  have hbaseL : (encodeFile stem ext t).toList
      = stem.toList ++ '_' :: ((encodeTimestamp t).toList ++ ext.toList) := by
    simp [encodeFile, toList_append]
  unfold extOk at hext
  split at hext
  case h_3 => exact absurd hext (by decide)
  case h_1 heq =>
    -- empty extension
    replace hext := List.all_eq_true.mp hext
    have hext0 : ext = "" := by
      rw [← String.asString_toList ext, heq]
      rfl
    have hbase0 : (encodeFile stem ext t).toList
        = stem.toList ++ '_' :: (encodeTimestamp t).toList := by
      rw [hbaseL, heq, List.append_nil]
    have hnoslash : ∀ c ∈ (encodeFile stem ext t).toList, c ≠ '/' := by
      intro c hc
      rw [hbase0] at hc
      simp only [List.mem_append, List.mem_cons] at hc
      rcases hc with hc | rfl | hc
      · exact hslash c hc
      · decide
      · exact isDigit_ne (encodeTimestamp_digits t c hc) (by decide)
    obtain ⟨c0, srest, hsteml⟩ : ∃ c0 srest, stem.toList = c0 :: srest := by
      cases hs : stem.toList with
      | nil => exact absurd hs hstemL
      | cons a l => exact ⟨a, l, rfl⟩
    have hdrop : ∀ x ∈ srest, x ≠ '.' := by
      intro x hx
      have := hext x (by rw [hsteml]; simpa using hx)
      simpa using this
    have hsp : splitExtension (encodeFile stem ext t) = (encodeFile stem ext t, "") := by
      refine @splitExtension_nodot (encodeFile stem ext t) c0
        (srest ++ '_' :: (encodeTimestamp t).toList) (by rw [hbase0, hsteml]; simp) ?_
      intro x hx
      simp only [List.mem_append, List.mem_cons] at hx
      rcases hx with hx | rfl | hx
      · exact hdrop x hx
      · decide
      · exact isDigit_ne (encodeTimestamp_digits t x hx) (by decide)
    have hpt : parseTimestampSuffix (encodeFile stem ext t) = some (stem, t) := by
      have h1 := @parseTimestampSuffix_encode (encodeFile stem ext t) stem.toList t
        hbase0 hstemL ht
      rwa [String.asString_toList] at h1
    have hfb : fileBaseName (encodeFile stem ext t) = encodeFile stem ext t :=
      fileBaseName_eq hnoslash
    subst hext0
    simp only [decodeFile, hfb, hsp, hpt]
  case h_2 etail heq =>
    -- dotted extension
    replace hext := List.all_eq_true.mp hext
    have hetail : ∀ c ∈ etail, c ≠ '.' ∧ c ≠ '/' := by
      intro c hc
      have := hext c hc
      simpa using this
    have hbase2 : (encodeFile stem ext t).toList
        = (stem.toList ++ '_' :: (encodeTimestamp t).toList) ++ '.' :: etail := by
      rw [hbaseL, heq]
      simp
    have hnoslash : ∀ c ∈ (encodeFile stem ext t).toList, c ≠ '/' := by
      intro c hc
      rw [hbase2] at hc
      simp only [List.mem_append, List.mem_cons] at hc
      rcases hc with (hc | rfl | hc) | rfl | hc
      · exact hslash c hc
      · decide
      · exact isDigit_ne (encodeTimestamp_digits t c hc) (by decide)
      · decide
      · exact (hetail c hc).2
    have hnm : stem.toList ++ '_' :: (encodeTimestamp t).toList ≠ [] := by
      cases hs : stem.toList with
      | nil => exact absurd hs hstemL
      | cons a l => simp
    have hsp : splitExtension (encodeFile stem ext t)
        = ((stem.toList ++ '_' :: (encodeTimestamp t).toList).asString,
            ('.' :: etail).asString) :=
      splitExtension_ext hbase2 hnm (fun c hc => (hetail c hc).1)
    have hexteq : ('.' :: etail).asString = ext := by
      rw [← heq]
      exact String.asString_toList ext
    have hpt : parseTimestampSuffix
        ((stem.toList ++ '_' :: (encodeTimestamp t).toList).asString) = some (stem, t) := by
      have h1 := @parseTimestampSuffix_encode
        ((stem.toList ++ '_' :: (encodeTimestamp t).toList).asString) stem.toList t
        (List.toList_asString _) hstemL ht
      rwa [String.asString_toList] at h1
    have hfb : fileBaseName (encodeFile stem ext t) = encodeFile stem ext t :=
      fileBaseName_eq hnoslash
    simp only [decodeFile, hfb, hsp, hpt, hexteq]

/-- C5 (witness): the theorem applied to the triple
`("test.config", ".js", 2024-12-01 12:00:00)`, whose encoding is
`test.config_20241201120000.js`. -/
theorem c5_witness :
    decodeFile (encodeFile "test.config" ".js" ⟨2024, 11, 1, 12, 0, 0⟩) true
      = some ⟨encodeFile "test.config" ".js" ⟨2024, 11, 1, 12, 0, 0⟩,
          "test.config", ".js", some ⟨2024, 11, 1, 12, 0, 0⟩⟩ ∧
    encodeFile "test.config" ".js" ⟨2024, 11, 1, 12, 0, 0⟩ = "test.config_20241201120000.js" :=
  ⟨c5_codec_roundtrip "test.config" ".js" ⟨2024, 11, 1, 12, 0, 0⟩ (by decide), by decide⟩

end TimeMachine
